import Mathlib

/-!
Verification of the MCS queue lock in src/main.rs (ytakano/mcs_lock).

The Rust program implements an MCS lock:

* MCSLock.last   : AtomicPtr to the most recently enqueued MCSNode (the tail).
* MCSNode.next   : AtomicPtr to the successor node.
* MCSNode.locked : AtomicBool spin flag.
* MCSNode::lock  : swap self into last; if the previous tail is non-null,
  store locked := true, publish self into prev.next, and spin on locked.
* Drop for MCSLockGuard : if next is null, try CAS last from self to null;
  otherwise wait until next is non-null, clear the successor's locked flag,
  and reset own next to null.

We embed the program as an interleaved small-step state machine.  Pointers
become node identifiers: the demonstration harness (`main`) creates exactly
one node per thread via `get_locker` and reuses it for every acquisition,
so node identifiers coincide with thread identifiers `Fin n`.  Each thread
has a program counter recording its position in `MCSNode::lock` /
`Drop for MCSLockGuard`; every transition of the step function performs the
shared-memory effect of exactly one atomic operation of the source.

Besides the real fields (`last`, `next`, `locked`, `pc`) the state carries
ghost history fields (`queue`, `enqHist`, `csHist`) that record the order
of tail swaps and of critical-section entries; the step function never
reads them to decide a real-field update.
-/

namespace MCS

/-- Program counter of one thread through `MCSNode::lock` (main.rs lines
39-59) and `Drop for MCSLockGuard` (lines 66-91).  `storeLocked p` and
`storeNext p` remember the previous tail `prev` returned by the swap. -/
inductive PC (n : Nat) where
  /-- Not inside `lock` nor holding a guard. -/
  | idle : PC n
  /-- About to execute `self.locked.store(true, SeqCst)` (line 48). -/
  | storeLocked (p : Fin n) : PC n
  /-- About to execute `prev.next.store(ptr, SeqCst)` (line 52). -/
  | storeNext (p : Fin n) : PC n
  /-- Spinning in `while self.locked.load(SeqCst) {}` (line 55). -/
  | spinLocked : PC n
  /-- Holding the guard (critical section, line 58 returned). -/
  | cs : PC n
  /-- At the start of `drop`: load of `next` and possible CAS (lines 69-79). -/
  | relCheck : PC n
  /-- Spinning in `while self.node.next.load(SeqCst) == null {}` (line 82). -/
  | relSpin : PC n
  /-- About to execute `next.locked.store(false, SeqCst)` (lines 85-86). -/
  | relWake : PC n
  /-- About to execute `self.node.next.store(null, SeqCst)` (line 89). -/
  | relReset : PC n
deriving DecidableEq, Repr

/-- Global state of the lock and of the `n` per-thread nodes.  `last`,
`next`, `locked` and `pc` are the real shared-memory fields; `queue`,
`enqHist` and `csHist` are ghost observers (swap order and cs-entry order)
never read by real-field updates. -/
structure State (n : Nat) where
  /-- `MCSLock.last`: identifier of the current tail node, or `none` for null. -/
  last : Option (Fin n)
  /-- `MCSNode.next` of each node, or `none` for null. -/
  next : Fin n → Option (Fin n)
  /-- `MCSNode.locked` of each node. -/
  locked : Fin n → Bool
  /-- Program counter of each thread. -/
  pc : Fin n → PC n
  /-- Ghost: the live queue, head (current holder) first, tail last. -/
  queue : List (Fin n)
  /-- Ghost: every tail swap ever performed, in order. -/
  enqHist : List (Fin n)
  /-- Ghost: every critical-section entry ever performed, in order. -/
  csHist : List (Fin n)

/-- Initial state: `MCSLock::new` gives a null tail, and each node is as
`get_locker` builds it — `next` null, `locked` false — with every thread
outside the protocol. -/
def init (n : Nat) : State n :=
  { last := none
    next := fun _ => none
    locked := fun _ => false
    pc := fun _ => PC.idle
    queue := []
    enqHist := []
    csHist := [] }

/-- One atomic action of thread `i`, following main.rs line by line.
From `idle` the thread performs the tail swap of line 42 and branches as
line 46 does; `storeLocked`, `storeNext`, `spinLocked` are lines 48, 52
and 55; `cs` drops the guard; `relCheck`, `relSpin`, `relWake`, `relReset`
are lines 69-79, 82, 85-86 and 89 of the drop handler.  Spin iterations
that observe no change leave the state unchanged. -/
def step {n : Nat} (s : State n) (i : Fin n) : State n :=
  match s.pc i with
  | PC.idle =>
      match s.last with
      | none =>
          { s with
            last := some i
            queue := s.queue ++ [i]
            enqHist := s.enqHist ++ [i]
            csHist := s.csHist ++ [i]
            pc := Function.update s.pc i PC.cs }
      | some p =>
          { s with
            last := some i
            queue := s.queue ++ [i]
            enqHist := s.enqHist ++ [i]
            pc := Function.update s.pc i (PC.storeLocked p) }
  | PC.storeLocked p =>
      { s with
        locked := Function.update s.locked i true
        pc := Function.update s.pc i (PC.storeNext p) }
  | PC.storeNext p =>
      { s with
        next := Function.update s.next p (some i)
        pc := Function.update s.pc i PC.spinLocked }
  | PC.spinLocked =>
      if s.locked i then s
      else
        { s with
          csHist := s.csHist ++ [i]
          pc := Function.update s.pc i PC.cs }
  | PC.cs =>
      { s with pc := Function.update s.pc i PC.relCheck }
  | PC.relCheck =>
      match s.next i with
      | none =>
          if s.last = some i then
            { s with
              last := none
              queue := []
              pc := Function.update s.pc i PC.idle }
          else
            { s with pc := Function.update s.pc i PC.relSpin }
      | some _ =>
          { s with pc := Function.update s.pc i PC.relSpin }
  | PC.relSpin =>
      match s.next i with
      | none => s
      | some _ => { s with pc := Function.update s.pc i PC.relWake }
  | PC.relWake =>
      match s.next i with
      | none => s
      | some c =>
          { s with
            locked := Function.update s.locked c false
            queue := s.queue.tail
            pc := Function.update s.pc i PC.relReset }
  | PC.relReset =>
      { s with
        next := Function.update s.next i none
        pc := Function.update s.pc i PC.idle }

/-- Run a schedule: each list entry names the thread taking the next step. -/
def run {n : Nat} (s : State n) : List (Fin n) → State n
  | [] => s
  | i :: sched => run (step s i) sched

/-- A state is reachable when some schedule produces it from `init`. -/
def Reachable {n : Nat} (s : State n) : Prop :=
  ∃ sched : List (Fin n), s = run (init n) sched

/-- Program counters of a thread that is past its tail swap and has not yet
finished handing off: it holds the lock or is queued awaiting it. -/
def ActivePC {n : Nat} (c : PC n) : Prop :=
  c ≠ PC.idle ∧ c ≠ PC.relReset

/-- Program counters possible for the queue head (the lock holder, or a
woken waiter about to leave its spin loop). -/
def HeadPC {n : Nat} (c : PC n) : Prop :=
  c = PC.spinLocked ∨ c = PC.cs ∨ c = PC.relCheck ∨ c = PC.relSpin ∨ c = PC.relWake

/-- Program counters of a thread that has entered its critical section and
not yet handed off. -/
def EnteredPC {n : Nat} (c : PC n) : Prop :=
  c = PC.cs ∨ c = PC.relCheck ∨ c = PC.relSpin ∨ c = PC.relWake

/-- Thread `i` currently holds the lock (possibly mid-release, before the
handoff or the tail CAS) or awaits it (between its tail swap and its spin
loop exit). -/
def HoldsOrAwaits {n : Nat} (s : State n) (i : Fin n) : Prop :=
  ActivePC (s.pc i)

/-- The list `t` is a well-formed chain of waiters queued behind node `p`:
each element is the queue successor of the one before it, its program
counter records that predecessor, `next` links exist exactly for waiters
that have executed line 52, and the final node's `next` is null. -/
inductive Waiters {n : Nat} (s : State n) : Fin n → List (Fin n) → Prop where
  | nil (p : Fin n) : s.next p = none → Waiters s p []
  | consA (p c : Fin n) (t : List (Fin n)) :
      s.pc c = PC.storeLocked p → s.locked c = false → s.next p = none →
      Waiters s c t → Waiters s p (c :: t)
  | consB (p c : Fin n) (t : List (Fin n)) :
      s.pc c = PC.storeNext p → s.locked c = true → s.next p = none →
      Waiters s c t → Waiters s p (c :: t)
  | consC (p c : Fin n) (t : List (Fin n)) :
      s.pc c = PC.spinLocked → s.locked c = true → s.next p = some c →
      Waiters s c t → Waiters s p (c :: t)

/-- Ghost-history invariant: the swap history equals the cs-entry history
followed by the queue members that have not yet entered their critical
section (all of the queue when even the head is still spinning). -/
def HistInv {n : Nat} (s : State n) : Prop :=
  (s.queue = [] ∧ s.enqHist = s.csHist) ∨
    (∃ h t, s.queue = h :: t ∧ EnteredPC (s.pc h) ∧
      s.enqHist = s.csHist ++ t ∧ s.csHist.getLast? = some h) ∨
    (∃ h t, s.queue = h :: t ∧ ¬ EnteredPC (s.pc h) ∧
      s.enqHist = s.csHist ++ (h :: t))

/-- Global inductive invariant of the MCS lock, relating the shared tail,
the per-node fields and the ghost queue. -/
structure Inv {n : Nat} (s : State n) : Prop where
  /-- The tail pointer names the last enqueued, not yet dequeued node. -/
  lastEq : s.last = s.queue.getLast?
  /-- No node is queued twice. -/
  nodup : s.queue.Nodup
  /-- The queue consists exactly of the threads past their swap and before
  the end of their handoff. -/
  memAct : ∀ i, i ∈ s.queue ↔ ActivePC (s.pc i)
  /-- The queue head holds the lock or has been woken, its flag is clear,
  and the rest of the queue is a well-formed waiter chain behind it. -/
  qok : ∀ h t, s.queue = h :: t →
    HeadPC (s.pc h) ∧ s.locked h = false ∧ Waiters s h t
  /-- Off-queue nodes have a clear flag. -/
  restLk : ∀ i, i ∉ s.queue → s.locked i = false
  /-- Idle threads have a null `next` (freshly built or fully reset). -/
  restNx : ∀ i, s.pc i = PC.idle → s.next i = none
  /-- Ghost histories stay consistent with the queue. -/
  hist : HistInv s

/-- Shallow functional embedding of the constructors.  `MCSLockT` models
`MCSLock<T>` (main.rs lines 7-10) with the tail pointer abstracted to an
optional node identifier; `MCSNodeT` models `MCSNode<T>` (lines 12-16),
where the `Arc<MCSLock<T>>` clone of `get_locker` is value sharing. -/
structure MCSLockT (T : Type) where
  /-- `MCSLock.last`, the queue tail pointer. -/
  last : Option Nat
  /-- `MCSLock.data`, the protected payload. -/
  data : T

/-- Model of `MCSNode<T>` (main.rs lines 12-16). -/
structure MCSNodeT (T : Type) where
  /-- `MCSNode.next`, the successor pointer. -/
  next : Option Nat
  /-- `MCSNode.locked`, the spin flag. -/
  locked : Bool
  /-- `MCSNode.mcs_lock`, the Arc back to the lock. -/
  mcs_lock : MCSLockT T

/-- `MCSLock::new` (main.rs lines 19-24): null tail, given payload. -/
def MCSLockT.new {T : Type} (v : T) : MCSLockT T :=
  { last := none, data := v }

/-- `MCSLock::get_locker` (main.rs lines 26-32): builds a fresh node with
null `next`, clear `locked`, and a clone of the Arc to this lock. -/
def MCSLockT.get_locker {T : Type} (self : MCSLockT T) : MCSNodeT T :=
  { next := none, locked := false, mcs_lock := self }

/-- Memory orderings of Rust atomics, as used in the source. -/
inductive MemOrd where
  /-- `Ordering::Relaxed`. -/
  | relaxed : MemOrd
  /-- `Ordering::Acquire`. -/
  | acquire : MemOrd
  /-- `Ordering::Release`. -/
  | release : MemOrd
  /-- `Ordering::AcqRel`. -/
  | acqRel : MemOrd
  /-- `Ordering::SeqCst`. -/
  | seqCst : MemOrd
deriving DecidableEq

/-- Ordering of the tail swap `last.swap(ptr, ...)`, line 42. -/
def swapOrd : MemOrd := MemOrd.seqCst

/-- Ordering of `self.locked.store(true, ...)`, line 48. -/
def storeLockedOrd : MemOrd := MemOrd.seqCst

/-- Ordering of the publishing store `prev.next.store(ptr, ...)`, line 52. -/
def storeNextOrd : MemOrd := MemOrd.seqCst

/-- Ordering of the spin load `self.locked.load(...)`, line 55. -/
def loadLockedOrd : MemOrd := MemOrd.seqCst

/-- Ordering of the drop handler loads of `next`, lines 69, 82 and 85. -/
def loadNextOrd : MemOrd := MemOrd.seqCst

/-- Success ordering of the CAS on `last`, line 74. -/
def casSuccessOrd : MemOrd := MemOrd.seqCst

/-- Failure ordering of the CAS on `last`, line 75. -/
def casFailureOrd : MemOrd := MemOrd.relaxed

/-- Ordering of the handoff store `next.locked.store(false, ...)`, line 86. -/
def wakeStoreOrd : MemOrd := MemOrd.seqCst

/-- Ordering of `self.node.next.store(null, ...)`, line 89. -/
def resetNextOrd : MemOrd := MemOrd.seqCst

/-- Orderings giving at least release strength to a store. -/
def MemOrd.atLeastRelease : MemOrd → Prop
  | MemOrd.release => True
  | MemOrd.acqRel => True
  | MemOrd.seqCst => True
  | _ => False

/-- Orderings giving at least acquire strength to a load. -/
def MemOrd.atLeastAcquire : MemOrd → Prop
  | MemOrd.acquire => True
  | MemOrd.acqRel => True
  | MemOrd.seqCst => True
  | _ => False

section StepLemmas

variable {n : Nat} (s : State n) (i : Fin n)

/-- Swap on an empty tail (lines 42, 46 false): immediate lock acquisition. -/
theorem step_idle_empty (hpc : s.pc i = PC.idle) (hl : s.last = none) :
    step s i =
      { s with
        last := some i
        queue := s.queue ++ [i]
        enqHist := s.enqHist ++ [i]
        csHist := s.csHist ++ [i]
        pc := Function.update s.pc i PC.cs } := by
  simp [step, hpc, hl]

/-- Swap on a non-empty tail (lines 42, 46 true): record `prev` and go wait. -/
theorem step_idle_prev (p : Fin n) (hpc : s.pc i = PC.idle) (hl : s.last = some p) :
    step s i =
      { s with
        last := some i
        queue := s.queue ++ [i]
        enqHist := s.enqHist ++ [i]
        pc := Function.update s.pc i (PC.storeLocked p) } := by
  simp [step, hpc, hl]

/-- Line 48: `self.locked.store(true, SeqCst)`. -/
theorem step_storeLocked (p : Fin n) (hpc : s.pc i = PC.storeLocked p) :
    step s i =
      { s with
        locked := Function.update s.locked i true
        pc := Function.update s.pc i (PC.storeNext p) } := by
  simp [step, hpc]

/-- Line 52: `prev.next.store(ptr, SeqCst)`. -/
theorem step_storeNext (p : Fin n) (hpc : s.pc i = PC.storeNext p) :
    step s i =
      { s with
        next := Function.update s.next p (some i)
        pc := Function.update s.pc i PC.spinLocked } := by
  simp [step, hpc]

/-- Line 55, flag still set: the spin loop iterates without any effect. -/
theorem step_spin_busy (hpc : s.pc i = PC.spinLocked) (hlk : s.locked i = true) :
    step s i = s := by
  simp [step, hpc, hlk]

/-- Line 55, flag cleared: the spin loop exits and the guard is returned. -/
theorem step_spin_exit (hpc : s.pc i = PC.spinLocked) (hlk : s.locked i = false) :
    step s i =
      { s with
        csHist := s.csHist ++ [i]
        pc := Function.update s.pc i PC.cs } := by
  simp [step, hpc, hlk]

/-- Dropping the guard enters the drop handler. -/
theorem step_cs (hpc : s.pc i = PC.cs) :
    step s i = { s with pc := Function.update s.pc i PC.relCheck } := by
  simp [step, hpc]

/-- Lines 69-77: `next` null and the CAS of `last` from `i` to null succeeds. -/
theorem step_relCheck_cas (hpc : s.pc i = PC.relCheck) (hnx : s.next i = none)
    (hl : s.last = some i) :
    step s i =
      { s with
        last := none
        queue := []
        pc := Function.update s.pc i PC.idle } := by
  simp [step, hpc, hnx, hl]

/-- Lines 69-79: `next` null but the CAS fails; fall through to the wait loop. -/
theorem step_relCheck_casFail (hpc : s.pc i = PC.relCheck) (hnx : s.next i = none)
    (hl : s.last ≠ some i) :
    step s i = { s with pc := Function.update s.pc i PC.relSpin } := by
  simp [step, hpc, hnx, hl]

/-- Line 69 sees a non-null `next`: skip the CAS, go to the wait loop. -/
theorem step_relCheck_succ (c : Fin n) (hpc : s.pc i = PC.relCheck)
    (hnx : s.next i = some c) :
    step s i = { s with pc := Function.update s.pc i PC.relSpin } := by
  simp [step, hpc, hnx]

/-- Line 82, `next` still null: the wait loop iterates without any effect. -/
theorem step_relSpin_busy (hpc : s.pc i = PC.relSpin) (hnx : s.next i = none) :
    step s i = s := by
  simp [step, hpc, hnx]

/-- Line 82, `next` non-null: the wait loop exits. -/
theorem step_relSpin_exit (c : Fin n) (hpc : s.pc i = PC.relSpin)
    (hnx : s.next i = some c) :
    step s i = { s with pc := Function.update s.pc i PC.relWake } := by
  simp [step, hpc, hnx]

/-- Lines 85-86: clear the successor's `locked` flag (the handoff). -/
theorem step_relWake (c : Fin n) (hpc : s.pc i = PC.relWake)
    (hnx : s.next i = some c) :
    step s i =
      { s with
        locked := Function.update s.locked c false
        queue := s.queue.tail
        pc := Function.update s.pc i PC.relReset } := by
  simp [step, hpc, hnx]

/-- Line 89: reset own `next` to null and leave the drop handler. -/
theorem step_relReset (hpc : s.pc i = PC.relReset) :
    step s i =
      { s with
        next := Function.update s.next i none
        pc := Function.update s.pc i PC.idle } := by
  simp [step, hpc]

end StepLemmas

section WaitersLemmas

variable {n : Nat} {s s' : State n}

/-- A waiter chain only reads the `pc` and `locked` fields of its members
and the `next` fields of its members and base, so it transports along any
state change that agrees there. -/
theorem waiters_mono {p : Fin n} {t : List (Fin n)} (hw : Waiters s p t)
    (hpc : ∀ c ∈ t, s'.pc c = s.pc c)
    (hlk : ∀ c ∈ t, s'.locked c = s.locked c)
    (hnx : ∀ a, a = p ∨ a ∈ t → s'.next a = s.next a) :
    Waiters s' p t := by
  induction hw with
  | nil p hn =>
      exact Waiters.nil p ((hnx p (Or.inl rfl)).trans hn)
  | consA p c t h1 h2 h3 _ ih =>
      refine Waiters.consA p c t ?_ ?_ ?_ ?_
      · exact (hpc c (List.mem_cons_self c t)).trans h1
      · exact (hlk c (List.mem_cons_self c t)).trans h2
      · exact (hnx p (Or.inl rfl)).trans h3
      · exact ih (fun d hd => hpc d (List.mem_cons_of_mem c hd))
          (fun d hd => hlk d (List.mem_cons_of_mem c hd))
          (fun a ha => hnx a (Or.inr (List.mem_cons.2 ha)))
  | consB p c t h1 h2 h3 _ ih =>
      refine Waiters.consB p c t ?_ ?_ ?_ ?_
      · exact (hpc c (List.mem_cons_self c t)).trans h1
      · exact (hlk c (List.mem_cons_self c t)).trans h2
      · exact (hnx p (Or.inl rfl)).trans h3
      · exact ih (fun d hd => hpc d (List.mem_cons_of_mem c hd))
          (fun d hd => hlk d (List.mem_cons_of_mem c hd))
          (fun a ha => hnx a (Or.inr (List.mem_cons.2 ha)))
  | consC p c t h1 h2 h3 _ ih =>
      refine Waiters.consC p c t ?_ ?_ ?_ ?_
      · exact (hpc c (List.mem_cons_self c t)).trans h1
      · exact (hlk c (List.mem_cons_self c t)).trans h2
      · exact (hnx p (Or.inl rfl)).trans h3
      · exact ih (fun d hd => hpc d (List.mem_cons_of_mem c hd))
          (fun d hd => hlk d (List.mem_cons_of_mem c hd))
          (fun a ha => hnx a (Or.inr (List.mem_cons.2 ha)))

/-- Every member of a waiter chain is at one of the three waiter program
counters of `MCSNode::lock` — never holding the lock. -/
theorem waiters_pc_mem {p c : Fin n} {t : List (Fin n)} (hw : Waiters s p t)
    (hc : c ∈ t) :
    (∃ a, s.pc c = PC.storeLocked a ∨ s.pc c = PC.storeNext a) ∨
      s.pc c = PC.spinLocked := by
  induction hw with
  | nil p hn => cases hc
  | consA p d t h1 _ _ _ ih =>
      rcases List.mem_cons.1 hc with h | h
      · exact Or.inl ⟨p, Or.inl (h ▸ h1)⟩
      · exact ih h
  | consB p d t h1 _ _ _ ih =>
      rcases List.mem_cons.1 hc with h | h
      · exact Or.inl ⟨p, Or.inr (h ▸ h1)⟩
      · exact ih h
  | consC p d t h1 _ _ _ ih =>
      rcases List.mem_cons.1 hc with h | h
      · exact Or.inr (h ▸ h1)
      · exact ih h

/-- A chain member spinning on its `locked` flag still has the flag set. -/
theorem waiters_locked_spin {p c : Fin n} {t : List (Fin n)} (hw : Waiters s p t)
    (hc : c ∈ t) (hpc : s.pc c = PC.spinLocked) : s.locked c = true := by
  induction hw with
  | nil p hn => cases hc
  | consA p d t h1 h2 _ _ ih =>
      rcases List.mem_cons.1 hc with h | h
      · subst h; rw [hpc] at h1; cases h1
      · exact ih h
  | consB p d t h1 h2 _ _ ih =>
      rcases List.mem_cons.1 hc with h | h
      · subst h; rw [hpc] at h1; cases h1
      · exact ih h
  | consC p d t h1 h2 _ _ ih =>
      rcases List.mem_cons.1 hc with h | h
      · subst h; exact h2
      · exact ih h

/-- When the chain base's `next` field is non-null it names the first chain
member, which has published itself (line 52 done) and is spinning. -/
theorem waiters_next_some {p c : Fin n} {t : List (Fin n)} (hw : Waiters s p t)
    (hn : s.next p = some c) :
    ∃ t', t = c :: t' ∧ s.pc c = PC.spinLocked ∧ s.locked c = true ∧
      Waiters s c t' := by
  cases hw with
  | nil _ hn' => rw [hn'] at hn; cases hn
  | consA _ d t h1 h2 h3 hw' => rw [h3] at hn; cases hn
  | consB _ d t h1 h2 h3 hw' => rw [h3] at hn; cases hn
  | consC _ d t h1 h2 h3 hw' =>
      rw [h3] at hn
      cases hn
      exact ⟨t, rfl, h1, h2, hw'⟩

/-- The `next` field of the final node of a chain is null. -/
theorem waiters_last_next {p l : Fin n} {t : List (Fin n)} (hw : Waiters s p t)
    (hl : (p :: t).getLast? = some l) : s.next l = none := by
  induction hw with
  | nil p hn =>
      cases hl
      exact hn
  | consA p c t _ _ _ _ ih => exact ih (by rwa [List.getLast?_cons_cons] at hl)
  | consB p c t _ _ _ _ ih => exact ih (by rwa [List.getLast?_cons_cons] at hl)
  | consC p c t _ _ _ _ ih => exact ih (by rwa [List.getLast?_cons_cons] at hl)

/-- A fresh waiter that has just swapped itself behind the chain's final
node (recorded in its program counter) extends the chain at the back. -/
theorem waiters_snoc {p l d : Fin n} {t : List (Fin n)} (hw : Waiters s p t)
    (hl : (p :: t).getLast? = some l) (hd1 : s.pc d = PC.storeLocked l)
    (hd2 : s.locked d = false) (hd3 : s.next d = none) :
    Waiters s p (t ++ [d]) := by
  induction hw with
  | nil p hn =>
      cases hl
      exact Waiters.consA p d [] hd1 hd2 hn (Waiters.nil d hd3)
  | consA p c t h1 h2 h3 _ ih =>
      exact Waiters.consA p c (t ++ [d]) h1 h2 h3
        (ih (by rwa [List.getLast?_cons_cons] at hl))
  | consB p c t h1 h2 h3 _ ih =>
      exact Waiters.consB p c (t ++ [d]) h1 h2 h3
        (ih (by rwa [List.getLast?_cons_cons] at hl))
  | consC p c t h1 h2 h3 _ ih =>
      exact Waiters.consC p c (t ++ [d]) h1 h2 h3
        (ih (by rwa [List.getLast?_cons_cons] at hl))

/-- The predecessor recorded by a chain member that is about to execute
line 52 is itself in the chain (it is the member's queue predecessor). -/
theorem waiters_pred_mem {p i q : Fin n} {t : List (Fin n)} (hw : Waiters s p t)
    (hi : i ∈ t) (hpc : s.pc i = PC.storeNext q) : q ∈ p :: t := by
  induction hw with
  | nil p hn => cases hi
  | consA p c t h1 _ _ _ ih =>
      rcases List.mem_cons.1 hi with h | h
      · subst h; rw [hpc] at h1; cases h1
      · exact List.mem_cons_of_mem p (ih h)
  | consB p c t h1 _ _ _ ih =>
      rcases List.mem_cons.1 hi with h | h
      · subst h
        rw [hpc] at h1
        cases h1
        exact List.mem_cons_self _ _
      · exact List.mem_cons_of_mem p (ih h)
  | consC p c t h1 _ _ _ ih =>
      rcases List.mem_cons.1 hi with h | h
      · subst h; rw [hpc] at h1; cases h1
      · exact List.mem_cons_of_mem p (ih h)

/-- Executing line 48 (`locked.store(true)`) by a chain member turns its
`consA` link into a `consB` link and leaves the rest of the chain intact. -/
theorem waiters_upd_storeLocked {p i q : Fin n} {t : List (Fin n)}
    (hw : Waiters s p t) (hpc : s.pc i = PC.storeLocked q) :
    Waiters
      { s with
        locked := Function.update s.locked i true
        pc := Function.update s.pc i (PC.storeNext q) } p t := by
  induction hw with
  | nil p hn => exact Waiters.nil p hn
  | consA p c t h1 h2 h3 _ ih =>
      by_cases hc : c = i
      · subst hc
        rw [hpc] at h1
        cases h1
        refine Waiters.consB q c t ?_ ?_ ?_ ih
        · simp
        · simp
        · exact h3
      · refine Waiters.consA p c t ?_ ?_ h3 ih
        · simpa [Function.update_noteq hc] using h1
        · simpa [Function.update_noteq hc] using h2
  | consB p c t h1 h2 h3 _ ih =>
      have hc : c ≠ i := by
        intro h
        rw [h, hpc] at h1
        cases h1
      refine Waiters.consB p c t ?_ ?_ h3 ih
      · simpa [Function.update_noteq hc] using h1
      · simpa [Function.update_noteq hc] using h2
  | consC p c t h1 h2 h3 _ ih =>
      have hc : c ≠ i := by
        intro h
        rw [h, hpc] at h1
        cases h1
      refine Waiters.consC p c t ?_ ?_ h3 ih
      · simpa [Function.update_noteq hc] using h1
      · simpa [Function.update_noteq hc] using h2

/-- Executing line 52 (`prev.next.store(self)`) by a chain member turns its
`consB` link into a `consC` link and, thanks to the chain being
duplicate-free, touches no other link. -/
theorem waiters_upd_storeNext {p i q : Fin n} {t : List (Fin n)}
    (hw : Waiters s p t) (hnd : (p :: t).Nodup) (hpc : s.pc i = PC.storeNext q)
    (hi : i ∈ t) :
    Waiters
      { s with
        next := Function.update s.next q (some i)
        pc := Function.update s.pc i PC.spinLocked } p t := by
  induction hw with
  | nil p hn => cases hi
  | consA p c t h1 h2 h3 hw ih =>
      have hc : c ≠ i := by
        intro h
        rw [h, hpc] at h1
        cases h1
      have hit : i ∈ t := (List.mem_cons.1 hi).resolve_left (fun h => hc h.symm)
      have hpq : p ≠ q := by
        intro h
        exact (List.nodup_cons.1 hnd).1 (h ▸ waiters_pred_mem hw hit hpc)
      refine Waiters.consA p c t ?_ h2 ?_ (ih hnd.of_cons hit)
      · simpa [Function.update_noteq hc] using h1
      · simpa [Function.update_noteq hpq] using h3
  | consB p c t h1 h2 h3 hw ih =>
      by_cases hc : c = i
      · subst hc
        rw [hpc] at h1
        cases h1
        refine Waiters.consC q c t ?_ h2 ?_ ?_
        · simp
        · simp
        · refine waiters_mono hw ?_ ?_ ?_
          · intro d hd
            have : d ≠ c := by
              intro h
              exact (List.nodup_cons.1 hnd.of_cons).1 (h ▸ hd)
            simp [Function.update_noteq this]
          · intro d hd
            rfl
          · intro a ha
            have hap : a ≠ q := by
              intro h
              apply (List.nodup_cons.1 hnd).1
              rcases ha with h' | h'
              · rw [← h, h']
                exact List.mem_cons_self c t
              · exact h ▸ List.mem_cons_of_mem c h'
            simp [Function.update_noteq hap]
      · have hit : i ∈ t := (List.mem_cons.1 hi).resolve_left (fun h => hc h.symm)
        have hpq : p ≠ q := by
          intro h
          exact (List.nodup_cons.1 hnd).1 (h ▸ waiters_pred_mem hw hit hpc)
        refine Waiters.consB p c t ?_ h2 ?_ (ih hnd.of_cons hit)
        · simpa [Function.update_noteq hc] using h1
        · simpa [Function.update_noteq hpq] using h3
  | consC p c t h1 h2 h3 hw ih =>
      have hc : c ≠ i := by
        intro h
        rw [h, hpc] at h1
        cases h1
      have hit : i ∈ t := (List.mem_cons.1 hi).resolve_left (fun h => hc h.symm)
      have hpq : p ≠ q := by
        intro h
        exact (List.nodup_cons.1 hnd).1 (h ▸ waiters_pred_mem hw hit hpc)
      refine Waiters.consC p c t ?_ h2 ?_ (ih hnd.of_cons hit)
      · simpa [Function.update_noteq hc] using h1
      · simpa [Function.update_noteq hpq] using h3

end WaitersLemmas

section InvConsequences

variable {n : Nat} {s : State n}

/-- A thread that has entered its critical section is the queue head. -/
theorem entered_is_head (hI : Inv s) {i : Fin n} (hE : EnteredPC (s.pc i)) :
    s.queue.head? = some i := by
  have hact : ActivePC (s.pc i) := by
    rcases hE with h | h | h | h <;> rw [h] <;> exact ⟨by simp, by simp⟩
  have hmem : i ∈ s.queue := (hI.memAct i).2 hact
  cases hq : s.queue with
  | nil => rw [hq] at hmem; cases hmem
  | cons h t =>
      rw [hq] at hmem
      rcases List.mem_cons.1 hmem with hih | hit
      · rw [hih]
        rfl
      · exfalso
        have hw := (hI.qok h t hq).2.2
        rcases waiters_pc_mem hw hit with ⟨a, ha | ha⟩ | ha <;>
          rcases hE with h' | h' | h' | h' <;> rw [h'] at ha <;> cases ha

/-- The queue of any invariant state is empty exactly when no thread is
between its tail swap and the end of its release. -/
theorem queue_empty_iff (hI : Inv s) :
    s.queue = [] ↔ ∀ i, ¬ ActivePC (s.pc i) := by
  constructor
  · intro hq i hact
    have := (hI.memAct i).2 hact
    rw [hq] at this
    cases this
  · intro hall
    cases hq : s.queue with
    | nil => rfl
    | cons h t =>
        exfalso
        exact hall h ((hI.memAct h).1 (hq ▸ List.mem_cons_self h t))

/-- In an invariant state whose tail names the queue head, the queue is
that single node (used for the successful release CAS). -/
theorem last_head_singleton (hI : Inv s) {i : Fin n}
    (hhd : s.queue.head? = some i) (hl : s.last = some i) :
    s.queue = [i] := by
  cases hq : s.queue with
  | nil => rw [hq] at hhd; cases hhd
  | cons h t =>
      rw [hq] at hhd
      cases hhd
      cases ht : t with
      | nil => rfl
      | cons c t' =>
          exfalso
          have hlast : s.queue.getLast? = some i := hl ▸ hI.lastEq.symm
          rw [hq, ht, List.getLast?_cons_cons] at hlast
          have hmem : i ∈ c :: t' := by
            have := List.mem_getLast?_eq_getLast hlast
            rcases this with ⟨hne, heq⟩
            exact heq ▸ List.getLast_mem hne
          have hnd := hI.nodup
          rw [hq, ht] at hnd
          exact (List.nodup_cons.1 hnd).1 hmem

end InvConsequences

section PCClasses

variable {n : Nat}

@[simp] theorem activePC_idle : ¬ ActivePC (PC.idle : PC n) := fun h => h.1 rfl

@[simp] theorem activePC_relReset : ¬ ActivePC (PC.relReset : PC n) := fun h => h.2 rfl

@[simp] theorem activePC_storeLocked (p : Fin n) : ActivePC (PC.storeLocked p) :=
  ⟨by simp, by simp⟩

@[simp] theorem activePC_storeNext (p : Fin n) : ActivePC (PC.storeNext p) :=
  ⟨by simp, by simp⟩

@[simp] theorem activePC_spinLocked : ActivePC (PC.spinLocked : PC n) :=
  ⟨by simp, by simp⟩

@[simp] theorem activePC_cs : ActivePC (PC.cs : PC n) := ⟨by simp, by simp⟩

@[simp] theorem activePC_relCheck : ActivePC (PC.relCheck : PC n) := ⟨by simp, by simp⟩

@[simp] theorem activePC_relSpin : ActivePC (PC.relSpin : PC n) := ⟨by simp, by simp⟩

@[simp] theorem activePC_relWake : ActivePC (PC.relWake : PC n) := ⟨by simp, by simp⟩

@[simp] theorem headPC_spinLocked : HeadPC (PC.spinLocked : PC n) := Or.inl rfl

@[simp] theorem headPC_cs : HeadPC (PC.cs : PC n) := Or.inr (Or.inl rfl)

@[simp] theorem headPC_relCheck : HeadPC (PC.relCheck : PC n) :=
  Or.inr (Or.inr (Or.inl rfl))

@[simp] theorem headPC_relSpin : HeadPC (PC.relSpin : PC n) :=
  Or.inr (Or.inr (Or.inr (Or.inl rfl)))

@[simp] theorem headPC_relWake : HeadPC (PC.relWake : PC n) :=
  Or.inr (Or.inr (Or.inr (Or.inr rfl)))

@[simp] theorem enteredPC_cs : EnteredPC (PC.cs : PC n) := Or.inl rfl

@[simp] theorem enteredPC_relCheck : EnteredPC (PC.relCheck : PC n) := Or.inr (Or.inl rfl)

@[simp] theorem enteredPC_relSpin : EnteredPC (PC.relSpin : PC n) :=
  Or.inr (Or.inr (Or.inl rfl))

@[simp] theorem enteredPC_relWake : EnteredPC (PC.relWake : PC n) :=
  Or.inr (Or.inr (Or.inr rfl))

@[simp] theorem enteredPC_idle : ¬ EnteredPC (PC.idle : PC n) := by
  rintro (h | h | h | h) <;> cases h

@[simp] theorem enteredPC_storeLocked (p : Fin n) : ¬ EnteredPC (PC.storeLocked p) := by
  rintro (h | h | h | h) <;> cases h

@[simp] theorem enteredPC_storeNext (p : Fin n) : ¬ EnteredPC (PC.storeNext p) := by
  rintro (h | h | h | h) <;> cases h

@[simp] theorem enteredPC_spinLocked : ¬ EnteredPC (PC.spinLocked : PC n) := by
  rintro (h | h | h | h) <;> cases h

@[simp] theorem enteredPC_relReset : ¬ EnteredPC (PC.relReset : PC n) := by
  rintro (h | h | h | h) <;> cases h

@[simp] theorem headPC_not_idle : ¬ HeadPC (PC.idle : PC n) := by
  rintro (h | h | h | h | h) <;> cases h

@[simp] theorem headPC_not_storeLocked (p : Fin n) : ¬ HeadPC (PC.storeLocked p) := by
  rintro (h | h | h | h | h) <;> cases h

@[simp] theorem headPC_not_storeNext (p : Fin n) : ¬ HeadPC (PC.storeNext p) := by
  rintro (h | h | h | h | h) <;> cases h

@[simp] theorem headPC_not_relReset : ¬ HeadPC (PC.relReset : PC n) := by
  rintro (h | h | h | h | h) <;> cases h

end PCClasses

section Preservation

variable {n : Nat} {s : State n} {i : Fin n}

/-- An invariant state with a thread in its critical section has that
thread at the queue head, in cons form. -/
theorem queue_decomp_of_entered (hI : Inv s) (hE : EnteredPC (s.pc i)) :
    ∃ t, s.queue = i :: t := by
  have hhd := entered_is_head hI hE
  cases hq : s.queue with
  | nil => rw [hq] at hhd; cases hhd
  | cons h t =>
      rw [hq] at hhd
      cases hhd
      exact ⟨t, rfl⟩

/-- Changing only the head thread's program counter between two
critical-section phases preserves the invariant. -/
theorem inv_update_head (hI : Inv s) {h : Fin n} {t : List (Fin n)}
    (hq : s.queue = h :: t) {c' : PC n} (hhd : HeadPC c')
    (hent : EnteredPC (s.pc h)) (hent' : EnteredPC c') :
    Inv { s with pc := Function.update s.pc h c' } := by
  obtain ⟨hh, hlk, hw⟩ := hI.qok h t hq
  have hht : h ∉ t := (List.nodup_cons.1 (hq ▸ hI.nodup)).1
  have hact' : ActivePC c' := by
    rcases hent' with h' | h' | h' | h' <;> rw [h'] <;> simp
  refine ⟨hI.lastEq, hI.nodup, ?_, ?_, ?_, ?_, ?_⟩
  · intro j
    show j ∈ s.queue ↔ ActivePC (Function.update s.pc h c' j)
    by_cases hj : j = h
    · subst hj
      rw [Function.update_same]
      exact iff_of_true (by rw [hq]; exact List.mem_cons_self _ _) hact'
    · rw [Function.update_noteq hj]
      exact hI.memAct j
  · intro h' t' hq'
    have hq'' : (h : Fin n) :: t = h' :: t' := by rw [← hq]; exact hq'
    cases hq''
    refine ⟨?_, hlk, ?_⟩
    · show HeadPC (Function.update s.pc h c' h)
      rw [Function.update_same]
      exact hhd
    · exact waiters_mono hw
        (fun c hc => Function.update_noteq (fun he => hht (by rw [← he]; exact hc)) _ _)
        (fun c hc => rfl) (fun a ha => rfl)
  · intro j hj
    exact hI.restLk j hj
  · intro j hj
    have hj' : Function.update s.pc h c' j = PC.idle := hj
    by_cases hji : j = h
    · subst hji
      rw [Function.update_same] at hj'
      exact absurd hj' hact'.1
    · rw [Function.update_noteq hji] at hj'
      exact hI.restNx j hj'
  · rcases hI.hist with ⟨hq0, _⟩ | ⟨h0, t0, hq0, hE0, he0, hg0⟩ | ⟨h0, t0, hq0, hE0, he0⟩
    · rw [hq0] at hq; cases hq
    · have heq : (h0 : Fin n) :: t0 = h :: t := by rw [← hq0]; exact hq
      cases heq
      refine Or.inr (Or.inl ⟨h, t, hq0, ?_, he0, hg0⟩)
      show EnteredPC (Function.update s.pc h c' h)
      rw [Function.update_same]
      exact hent'
    · have heq : (h0 : Fin n) :: t0 = h :: t := by rw [← hq0]; exact hq
      cases heq
      exact absurd hent hE0

/-- The tail swap of line 42 preserves the invariant (both branches of
line 46). -/
theorem inv_step_idle (hI : Inv s) (hpc : s.pc i = PC.idle) : Inv (step s i) := by
  have hiq : i ∉ s.queue := fun hmem => ((hI.memAct i).1 hmem).1 hpc
  have hlk : s.locked i = false := hI.restLk i hiq
  have hnx : s.next i = none := hI.restNx i hpc
  cases hl : s.last with
  | none =>
      rw [step_idle_empty s i hpc hl]
      have h0 := hI.lastEq
      rw [hl] at h0
      have hq : s.queue = [] := List.getLast?_eq_none_iff.1 h0.symm
      have hench : s.enqHist = s.csHist := by
        rcases hI.hist with ⟨_, he⟩ | ⟨h0, t0, hq0, _, _, _⟩ | ⟨h0, t0, hq0, _, _⟩
        · exact he
        · rw [hq] at hq0; cases hq0
        · rw [hq] at hq0; cases hq0
      refine ⟨?_, ?_, ?_, ?_, ?_, ?_, ?_⟩
      · show some i = (s.queue ++ [i]).getLast?
        exact (List.getLast?_concat _).symm
      · show (s.queue ++ [i]).Nodup
        rw [hq]
        simp
      · intro j
        show j ∈ s.queue ++ [i] ↔ ActivePC (Function.update s.pc i PC.cs j)
        by_cases hj : j = i
        · subst hj
          rw [Function.update_same]
          exact iff_of_true (by simp) (by simp)
        · rw [Function.update_noteq hj]
          rw [hq]
          simp only [List.nil_append, List.mem_singleton]
          exact iff_of_false hj (fun ha => by
            have := (hI.memAct j).2 ha
            rw [hq] at this
            cases this)
      · intro h' t' hq'
        have hq2 : s.queue ++ [i] = h' :: t' := hq'
        rw [hq] at hq2
        simp only [List.nil_append] at hq2
        cases hq2
        refine ⟨?_, ?_, ?_⟩
        · show HeadPC (Function.update s.pc i PC.cs i)
          rw [Function.update_same]
          simp
        · show s.locked i = false
          exact hlk
        · exact Waiters.nil i hnx
      · intro j hj
        show s.locked j = false
        exact hI.restLk j (fun hmem => hj (List.mem_append.2 (Or.inl hmem)))
      · intro j hj
        have hj' : Function.update s.pc i PC.cs j = PC.idle := hj
        by_cases hji : j = i
        · subst hji
          rw [Function.update_same] at hj'
          cases hj'
        · rw [Function.update_noteq hji] at hj'
          show s.next j = none
          exact hI.restNx j hj'
      · refine Or.inr (Or.inl ⟨i, [], ?_, ?_, ?_, ?_⟩)
        · show s.queue ++ [i] = [i]
          rw [hq]
          rfl
        · show EnteredPC (Function.update s.pc i PC.cs i)
          rw [Function.update_same]
          simp
        · show s.enqHist ++ [i] = (s.csHist ++ [i]) ++ []
          rw [hench]
          simp
        · show (s.csHist ++ [i]).getLast? = some i
          exact List.getLast?_concat _
  | some p =>
      rw [step_idle_prev s i p hpc hl]
      have h0 := hI.lastEq
      rw [hl] at h0
      obtain ⟨h, t, hq⟩ : ∃ h' t', s.queue = h' :: t' := by
        cases hq0 : s.queue with
        | nil =>
            rw [hq0] at h0
            simp at h0
        | cons h' t' => exact ⟨h', t', rfl⟩
      · obtain ⟨hh, hlkh, hw⟩ := hI.qok h t hq
        have hig : i ∉ h :: t := by rw [← hq]; exact hiq
        have hhi : h ≠ i := fun he => hig (by rw [he]; exact List.mem_cons_self _ _)
        have hnd : (h :: t).Nodup := by rw [← hq]; exact hI.nodup
        have hht : h ∉ t := (List.nodup_cons.1 hnd).1
        have htnd : t.Nodup := (List.nodup_cons.1 hnd).2
        have hit : i ∉ t := fun hmem => hig (List.mem_cons_of_mem _ hmem)
        refine ⟨?_, ?_, ?_, ?_, ?_, ?_, ?_⟩
        · show some i = (s.queue ++ [i]).getLast?
          exact (List.getLast?_concat _).symm
        · show (s.queue ++ [i]).Nodup
          rw [hq]
          simp only [List.cons_append, List.nodup_cons, List.nodup_append]
          refine ⟨?_, htnd, by simp, ?_⟩
          · intro hmem
            rcases List.mem_append.1 hmem with h' | h'
            · exact hht h'
            · exact hhi (List.mem_singleton.1 h')
          · intro a ha hb
            exact hit ((List.mem_singleton.1 hb) ▸ ha)
        · intro j
          show j ∈ s.queue ++ [i] ↔ ActivePC (Function.update s.pc i (PC.storeLocked p) j)
          by_cases hj : j = i
          · subst hj
            rw [Function.update_same]
            exact iff_of_true (by simp) (by simp)
          · rw [Function.update_noteq hj]
            constructor
            · intro hmem
              rcases List.mem_append.1 hmem with h' | h'
              · exact (hI.memAct j).1 h'
              · exact absurd (List.mem_singleton.1 h') hj
            · intro ha
              exact List.mem_append.2 (Or.inl ((hI.memAct j).2 ha))
        · intro h' t' hq'
          have hq2 : s.queue ++ [i] = h' :: t' := hq'
          rw [hq] at hq2
          have hq3 : h :: (t ++ [i]) = h' :: t' := by simpa using hq2
          cases hq3
          refine ⟨?_, ?_, ?_⟩
          · show HeadPC (Function.update s.pc i (PC.storeLocked p) h)
            rw [Function.update_noteq hhi]
            exact hh
          · show s.locked h = false
            exact hlkh
          · have hti : ∀ c ∈ t, c ≠ i :=
              fun c hc he => hig (List.mem_cons_of_mem h (by rw [← he]; exact hc))
            have hw' : Waiters
                { s with
                  last := some i
                  queue := s.queue ++ [i]
                  enqHist := s.enqHist ++ [i]
                  pc := Function.update s.pc i (PC.storeLocked p) } h t :=
              waiters_mono hw
                (fun c hc => Function.update_noteq (hti c hc) _ _)
                (fun c hc => rfl) (fun a ha => rfl)
            have hglast : ((h : Fin n) :: t).getLast? = some p := by
              rw [hq] at h0
              exact h0.symm
            refine waiters_snoc hw' hglast ?_ ?_ ?_
            · show Function.update s.pc i (PC.storeLocked p) i = PC.storeLocked p
              rw [Function.update_same]
            · show s.locked i = false
              exact hlk
            · show s.next i = none
              exact hnx
        · intro j hj
          show s.locked j = false
          exact hI.restLk j (fun hmem => hj (List.mem_append.2 (Or.inl hmem)))
        · intro j hj
          have hj' : Function.update s.pc i (PC.storeLocked p) j = PC.idle := hj
          by_cases hji : j = i
          · subst hji
            rw [Function.update_same] at hj'
            cases hj'
          · rw [Function.update_noteq hji] at hj'
            show s.next j = none
            exact hI.restNx j hj'
        · rcases hI.hist with ⟨hq0, _⟩ | ⟨h0', t0, hq0, hE0, he0, hg0⟩ |
              ⟨h0', t0, hq0, hE0, he0⟩
          · rw [hq] at hq0; cases hq0
          · have heq : (h0' : Fin n) :: t0 = h :: t := by rw [← hq0]; exact hq
            cases heq
            refine Or.inr (Or.inl ⟨h, t ++ [i], ?_, ?_, ?_, hg0⟩)
            · show s.queue ++ [i] = h :: (t ++ [i])
              rw [hq]
              rfl
            · show EnteredPC (Function.update s.pc i (PC.storeLocked p) h)
              rw [Function.update_noteq hhi]
              exact hE0
            · show s.enqHist ++ [i] = s.csHist ++ (t ++ [i])
              rw [he0, List.append_assoc]
          · have heq : (h0' : Fin n) :: t0 = h :: t := by rw [← hq0]; exact hq
            cases heq
            refine Or.inr (Or.inr ⟨h, t ++ [i], ?_, ?_, ?_⟩)
            · show s.queue ++ [i] = h :: (t ++ [i])
              rw [hq]
              rfl
            · show ¬ EnteredPC (Function.update s.pc i (PC.storeLocked p) h)
              rw [Function.update_noteq hhi]
              exact hE0
            · show s.enqHist ++ [i] = s.csHist ++ (h :: (t ++ [i]))
              rw [he0]
              simp

/-- Line 48 (`locked.store(true)`) preserves the invariant. -/
theorem inv_step_storeLocked (hI : Inv s) {p : Fin n}
    (hpc : s.pc i = PC.storeLocked p) : Inv (step s i) := by
  rw [step_storeLocked s i p hpc]
  have hiq : i ∈ s.queue := (hI.memAct i).2 (by rw [hpc]; simp)
  refine ⟨hI.lastEq, hI.nodup, ?_, ?_, ?_, ?_, ?_⟩
  · intro j
    show j ∈ s.queue ↔ ActivePC (Function.update s.pc i (PC.storeNext p) j)
    by_cases hj : j = i
    · subst hj
      rw [Function.update_same]
      exact iff_of_true hiq (by simp)
    · rw [Function.update_noteq hj]
      exact hI.memAct j
  · intro h t hq
    have hq' : s.queue = h :: t := hq
    obtain ⟨hh, hlkh, hw⟩ := hI.qok h t hq'
    have hhi : h ≠ i := by
      intro he
      rw [he, hpc] at hh
      simp at hh
    refine ⟨?_, ?_, ?_⟩
    · show HeadPC (Function.update s.pc i (PC.storeNext p) h)
      rw [Function.update_noteq hhi]
      exact hh
    · show Function.update s.locked i true h = false
      rw [Function.update_noteq hhi]
      exact hlkh
    · exact waiters_upd_storeLocked hw hpc
  · intro j hj
    have hji : j ≠ i := fun he => hj (by rw [he]; exact hiq)
    show Function.update s.locked i true j = false
    rw [Function.update_noteq hji]
    exact hI.restLk j hj
  · intro j hj
    have hj' : Function.update s.pc i (PC.storeNext p) j = PC.idle := hj
    by_cases hji : j = i
    · subst hji
      rw [Function.update_same] at hj'
      cases hj'
    · rw [Function.update_noteq hji] at hj'
      show s.next j = none
      exact hI.restNx j hj'
  · rcases hI.hist with ⟨hq0, he0⟩ | ⟨h0, t0, hq0, hE0, he0, hg0⟩ |
        ⟨h0, t0, hq0, hE0, he0⟩
    · exact Or.inl ⟨hq0, he0⟩
    · have hhi : h0 ≠ i := by
        intro he
        rw [he, hpc] at hE0
        simp at hE0
      refine Or.inr (Or.inl ⟨h0, t0, hq0, ?_, he0, hg0⟩)
      show EnteredPC (Function.update s.pc i (PC.storeNext p) h0)
      rw [Function.update_noteq hhi]
      exact hE0
    · have hhi : h0 ≠ i := by
        obtain ⟨hh, _, _⟩ := hI.qok h0 t0 hq0
        intro he
        rw [he, hpc] at hh
        simp at hh
      refine Or.inr (Or.inr ⟨h0, t0, hq0, ?_, he0⟩)
      show ¬ EnteredPC (Function.update s.pc i (PC.storeNext p) h0)
      rw [Function.update_noteq hhi]
      exact hE0

/-- Line 52 (`prev.next.store(self)`) preserves the invariant. -/
theorem inv_step_storeNext (hI : Inv s) {p : Fin n}
    (hpc : s.pc i = PC.storeNext p) : Inv (step s i) := by
  rw [step_storeNext s i p hpc]
  have hiq : i ∈ s.queue := (hI.memAct i).2 (by rw [hpc]; simp)
  obtain ⟨h, t, hq⟩ : ∃ h' t', s.queue = h' :: t' := by
    cases hq0 : s.queue with
    | nil =>
        rw [hq0] at hiq
        cases hiq
    | cons h' t' => exact ⟨h', t', rfl⟩
  obtain ⟨hh, hlkh, hw⟩ := hI.qok h t hq
  have hhi : h ≠ i := by
    intro he
    rw [he, hpc] at hh
    simp at hh
  have hit : i ∈ t := by
    have := hiq
    rw [hq] at this
    exact (List.mem_cons.1 this).resolve_left (fun he => hhi he.symm)
  have hpmem : p ∈ h :: t := waiters_pred_mem hw hit hpc
  have hpq : p ∈ s.queue := by rw [hq]; exact hpmem
  refine ⟨hI.lastEq, ?_, ?_, ?_, ?_, ?_, ?_⟩
  · exact hI.nodup
  · intro j
    show j ∈ s.queue ↔ ActivePC (Function.update s.pc i PC.spinLocked j)
    by_cases hj : j = i
    · subst hj
      rw [Function.update_same]
      exact iff_of_true hiq (by simp)
    · rw [Function.update_noteq hj]
      exact hI.memAct j
  · intro h' t' hq'
    have hq2 : s.queue = h' :: t' := hq'
    rw [hq] at hq2
    cases hq2
    refine ⟨?_, hlkh, ?_⟩
    · show HeadPC (Function.update s.pc i PC.spinLocked h)
      rw [Function.update_noteq hhi]
      exact hh
    · exact waiters_upd_storeNext hw (by rw [← hq]; exact hI.nodup) hpc hit
  · intro j hj
    exact hI.restLk j hj
  · intro j hj
    have hj' : Function.update s.pc i PC.spinLocked j = PC.idle := hj
    by_cases hji : j = i
    · subst hji
      rw [Function.update_same] at hj'
      cases hj'
    · rw [Function.update_noteq hji] at hj'
      have hjp : j ≠ p := by
        intro he
        have := (hI.memAct j).2
        rw [hj'] at this
        exact absurd (he ▸ hpq) (fun hmem => by
          have hact := (hI.memAct j).1 hmem
          rw [hj'] at hact
          exact hact.1 rfl)
      show Function.update s.next p (some i) j = none
      rw [Function.update_noteq hjp]
      exact hI.restNx j hj'
  · rcases hI.hist with ⟨hq0, he0⟩ | ⟨h0, t0, hq0, hE0, he0, hg0⟩ |
        ⟨h0, t0, hq0, hE0, he0⟩
    · rw [hq0] at hq; cases hq
    · have hh0 : h0 ≠ i := by
        intro he
        rw [he, hpc] at hE0
        simp at hE0
      refine Or.inr (Or.inl ⟨h0, t0, hq0, ?_, he0, hg0⟩)
      show EnteredPC (Function.update s.pc i PC.spinLocked h0)
      rw [Function.update_noteq hh0]
      exact hE0
    · have heq : (h0 : Fin n) :: t0 = h :: t := by rw [← hq0]; exact hq
      cases heq
      refine Or.inr (Or.inr ⟨h, t, hq0, ?_, he0⟩)
      show ¬ EnteredPC (Function.update s.pc i PC.spinLocked h)
      rw [Function.update_noteq hhi]
      exact hE0

/-- Line 55 exiting the spin loop (flag observed clear) preserves the
invariant: only the woken queue head can observe a clear flag. -/
theorem inv_step_spin_exit (hI : Inv s) (hpc : s.pc i = PC.spinLocked)
    (hlk : s.locked i = false) : Inv (step s i) := by
  rw [step_spin_exit s i hpc hlk]
  have hiq : i ∈ s.queue := (hI.memAct i).2 (by rw [hpc]; simp)
  obtain ⟨h, t, hq⟩ : ∃ h' t', s.queue = h' :: t' := by
    cases hq0 : s.queue with
    | nil =>
        rw [hq0] at hiq
        cases hiq
    | cons h' t' => exact ⟨h', t', rfl⟩
  obtain ⟨hh, hlkh, hw⟩ := hI.qok h t hq
  have hih : i = h := by
    by_contra hne
    have hit : i ∈ t := by
      have := hiq
      rw [hq] at this
      exact (List.mem_cons.1 this).resolve_left hne
    have := waiters_locked_spin hw hit hpc
    rw [hlk] at this
    cases this
  subst hih
  have hht : i ∉ t := (List.nodup_cons.1 (by rw [← hq]; exact hI.nodup)).1
  refine ⟨hI.lastEq, hI.nodup, ?_, ?_, ?_, ?_, ?_⟩
  · intro j
    show j ∈ s.queue ↔ ActivePC (Function.update s.pc i PC.cs j)
    by_cases hj : j = i
    · subst hj
      rw [Function.update_same]
      exact iff_of_true hiq (by simp)
    · rw [Function.update_noteq hj]
      exact hI.memAct j
  · intro h' t' hq'
    have hq2 : s.queue = h' :: t' := hq'
    rw [hq] at hq2
    cases hq2
    refine ⟨?_, hlkh, ?_⟩
    · show HeadPC (Function.update s.pc i PC.cs i)
      rw [Function.update_same]
      simp
    · exact waiters_mono hw
        (fun c hc => Function.update_noteq (fun he => hht (by rw [← he]; exact hc)) _ _)
        (fun c hc => rfl) (fun a ha => rfl)
  · intro j hj
    exact hI.restLk j hj
  · intro j hj
    have hj' : Function.update s.pc i PC.cs j = PC.idle := hj
    by_cases hji : j = i
    · subst hji
      rw [Function.update_same] at hj'
      cases hj'
    · rw [Function.update_noteq hji] at hj'
      exact hI.restNx j hj'
  · rcases hI.hist with ⟨hq0, he0⟩ | ⟨h0, t0, hq0, hE0, he0, hg0⟩ |
        ⟨h0, t0, hq0, hE0, he0⟩
    · rw [hq0] at hq; cases hq
    · have heq : (h0 : Fin n) :: t0 = i :: t := by rw [← hq0]; exact hq
      cases heq
      rw [hpc] at hE0
      simp at hE0
    · have heq : (h0 : Fin n) :: t0 = i :: t := by rw [← hq0]; exact hq
      cases heq
      refine Or.inr (Or.inl ⟨i, t, hq0, ?_, ?_, ?_⟩)
      · show EnteredPC (Function.update s.pc i PC.cs i)
        rw [Function.update_same]
        simp
      · show s.enqHist = (s.csHist ++ [i]) ++ t
        rw [he0]
        simp
      · show (s.csHist ++ [i]).getLast? = some i
        exact List.getLast?_concat _

/-- Dropping the guard (entering the drop handler) preserves the invariant. -/
theorem inv_step_cs (hI : Inv s) (hpc : s.pc i = PC.cs) : Inv (step s i) := by
  rw [step_cs s i hpc]
  obtain ⟨t, hq⟩ := queue_decomp_of_entered hI (by rw [hpc]; simp)
  exact inv_update_head hI hq (by simp) (by rw [hpc]; simp) (by simp)

/-- Lines 69-77, successful CAS of the tail back to null, preserve the
invariant: the queue was the single releasing node. -/
theorem inv_step_relCheck_cas (hI : Inv s) (hpc : s.pc i = PC.relCheck)
    (hnx : s.next i = none) (hl : s.last = some i) : Inv (step s i) := by
  rw [step_relCheck_cas s i hpc hnx hl]
  have hE : EnteredPC (s.pc i) := by rw [hpc]; simp
  have hq : s.queue = [i] := last_head_singleton hI (entered_is_head hI hE) hl
  have hlki : s.locked i = false := (hI.qok i [] hq).2.1
  refine ⟨?_, ?_, ?_, ?_, ?_, ?_, ?_⟩
  · show (none : Option (Fin n)) = ([] : List (Fin n)).getLast?
    rfl
  · show ([] : List (Fin n)).Nodup
    simp
  · intro j
    show j ∈ ([] : List (Fin n)) ↔ ActivePC (Function.update s.pc i PC.idle j)
    by_cases hj : j = i
    · subst hj
      rw [Function.update_same]
      exact iff_of_false (by simp) (by simp)
    · rw [Function.update_noteq hj]
      refine iff_of_false (by simp) (fun ha => ?_)
      have := (hI.memAct j).2 ha
      rw [hq] at this
      exact hj (List.mem_singleton.1 this)
  · intro h' t' hq'
    cases hq'
  · intro j hj
    by_cases hji : j = i
    · subst hji
      exact hlki
    · exact hI.restLk j (by rw [hq]; simp [hji])
  · intro j hj
    have hj' : Function.update s.pc i PC.idle j = PC.idle := hj
    by_cases hji : j = i
    · subst hji
      exact hnx
    · rw [Function.update_noteq hji] at hj'
      exact hI.restNx j hj'
  · rcases hI.hist with ⟨hq0, he0⟩ | ⟨h0, t0, hq0, hE0, he0, hg0⟩ |
        ⟨h0, t0, hq0, hE0, he0⟩
    · rw [hq0] at hq; cases hq
    · have heq : (h0 : Fin n) :: t0 = i :: [] := by rw [← hq0]; exact hq
      cases heq
      refine Or.inl ⟨rfl, ?_⟩
      show s.enqHist = s.csHist
      rw [he0]
      simp
    · have heq : (h0 : Fin n) :: t0 = i :: [] := by rw [← hq0]; exact hq
      cases heq
      rw [hpc] at hE0
      simp at hE0

/-- Lines 69-79 with a failing CAS preserve the invariant. -/
theorem inv_step_relCheck_casFail (hI : Inv s) (hpc : s.pc i = PC.relCheck)
    (hnx : s.next i = none) (hl : s.last ≠ some i) : Inv (step s i) := by
  rw [step_relCheck_casFail s i hpc hnx hl]
  obtain ⟨t, hq⟩ := queue_decomp_of_entered hI (by rw [hpc]; simp)
  exact inv_update_head hI hq (by simp) (by rw [hpc]; simp) (by simp)

/-- Line 69 observing a non-null `next` preserves the invariant. -/
theorem inv_step_relCheck_succ (hI : Inv s) {c : Fin n} (hpc : s.pc i = PC.relCheck)
    (hnx : s.next i = some c) : Inv (step s i) := by
  rw [step_relCheck_succ s i c hpc hnx]
  obtain ⟨t, hq⟩ := queue_decomp_of_entered hI (by rw [hpc]; simp)
  exact inv_update_head hI hq (by simp) (by rw [hpc]; simp) (by simp)

/-- Line 82 exiting the wait loop preserves the invariant. -/
theorem inv_step_relSpin_exit (hI : Inv s) {c : Fin n} (hpc : s.pc i = PC.relSpin)
    (hnx : s.next i = some c) : Inv (step s i) := by
  rw [step_relSpin_exit s i c hpc hnx]
  obtain ⟨t, hq⟩ := queue_decomp_of_entered hI (by rw [hpc]; simp)
  exact inv_update_head hI hq (by simp) (by rw [hpc]; simp) (by simp)

/-- Line 86 (`next.locked.store(false)`, the handoff) preserves the
invariant: the head leaves the queue and its woken successor becomes head. -/
theorem inv_step_relWake (hI : Inv s) {c : Fin n} (hpc : s.pc i = PC.relWake)
    (hnx : s.next i = some c) : Inv (step s i) := by
  rw [step_relWake s i c hpc hnx]
  obtain ⟨t, hq⟩ := queue_decomp_of_entered hI (by rw [hpc]; simp)
  obtain ⟨hh, hlkh, hw⟩ := hI.qok i t hq
  obtain ⟨t', ht, hcpc, hclk, hw'⟩ := waiters_next_some hw hnx
  subst ht
  have hnd : ((i : Fin n) :: c :: t').Nodup := by rw [← hq]; exact hI.nodup
  have hict : i ∉ (c : Fin n) :: t' := (List.nodup_cons.1 hnd).1
  have hic : i ≠ c := fun he => hict (by rw [he]; exact List.mem_cons_self _ _)
  have hct' : c ∉ t' := (List.nodup_cons.1 (List.nodup_cons.1 hnd).2).1
  refine ⟨?_, ?_, ?_, ?_, ?_, ?_, ?_⟩
  · show s.last = s.queue.tail.getLast?
    have h0 := hI.lastEq
    rw [hq, List.getLast?_cons_cons] at h0
    rw [hq]
    exact h0
  · show s.queue.tail.Nodup
    rw [hq]
    exact (List.nodup_cons.1 hnd).2
  · intro j
    show j ∈ s.queue.tail ↔ ActivePC (Function.update s.pc i PC.relReset j)
    rw [hq]
    show j ∈ (c : Fin n) :: t' ↔ _
    by_cases hj : j = i
    · subst hj
      rw [Function.update_same]
      exact iff_of_false hict (by simp)
    · rw [Function.update_noteq hj]
      constructor
      · intro hmem
        exact (hI.memAct j).1 (by rw [hq]; exact List.mem_cons_of_mem _ hmem)
      · intro ha
        have := (hI.memAct j).2 ha
        rw [hq] at this
        exact (List.mem_cons.1 this).resolve_left hj
  · intro h' t'' hq'
    have hq2 : s.queue.tail = h' :: t'' := hq'
    rw [hq] at hq2
    have hq3 : (c : Fin n) :: t' = h' :: t'' := hq2
    cases hq3
    refine ⟨?_, ?_, ?_⟩
    · show HeadPC (Function.update s.pc i PC.relReset c)
      rw [Function.update_noteq (fun he => hic he.symm), hcpc]
      simp
    · show Function.update s.locked c false c = false
      rw [Function.update_same]
    · refine waiters_mono hw' ?_ ?_ ?_
      · intro d hd
        have hdi : d ≠ i := fun he => hict (by rw [← he]; exact List.mem_cons_of_mem _ hd)
        exact Function.update_noteq hdi _ _
      · intro d hd
        have hdc : d ≠ c := fun he => hct' (by rw [← he]; exact hd)
        exact Function.update_noteq hdc _ _
      · intro a ha
        rfl
  · intro j hj
    show Function.update s.locked c false j = false
    by_cases hjc : j = c
    · subst hjc
      rw [Function.update_same]
    · rw [Function.update_noteq hjc]
      by_cases hji : j = i
      · subst hji
        exact hlkh
      · refine hI.restLk j (fun hmem => ?_)
        rw [hq] at hmem
        rcases List.mem_cons.1 hmem with h' | h'
        · exact hji h'
        · exact hj (by rw [hq]; exact h')
  · intro j hj
    have hj' : Function.update s.pc i PC.relReset j = PC.idle := hj
    by_cases hji : j = i
    · subst hji
      rw [Function.update_same] at hj'
      cases hj'
    · rw [Function.update_noteq hji] at hj'
      exact hI.restNx j hj'
  · rcases hI.hist with ⟨hq0, he0⟩ | ⟨h0, t0, hq0, hE0, he0, hg0⟩ |
        ⟨h0, t0, hq0, hE0, he0⟩
    · rw [hq0] at hq; cases hq
    · have heq : (h0 : Fin n) :: t0 = i :: c :: t' := by rw [← hq0]; exact hq
      cases heq
      refine Or.inr (Or.inr ⟨c, t', ?_, ?_, ?_⟩)
      · show s.queue.tail = (c : Fin n) :: t'
        rw [hq]
        rfl
      · show ¬ EnteredPC (Function.update s.pc i PC.relReset c)
        rw [Function.update_noteq (fun he => hic he.symm), hcpc]
        simp
      · show s.enqHist = s.csHist ++ ((c : Fin n) :: t')
        exact he0
    · have heq : (h0 : Fin n) :: t0 = i :: c :: t' := by rw [← hq0]; exact hq
      cases heq
      rw [hpc] at hE0
      simp at hE0

/-- Line 89 (resetting own `next` to null) preserves the invariant. -/
theorem inv_step_relReset (hI : Inv s) (hpc : s.pc i = PC.relReset) :
    Inv (step s i) := by
  rw [step_relReset s i hpc]
  have hiq : i ∉ s.queue := fun hmem => ((hI.memAct i).1 hmem).2 hpc
  refine ⟨hI.lastEq, hI.nodup, ?_, ?_, ?_, ?_, ?_⟩
  · intro j
    show j ∈ s.queue ↔ ActivePC (Function.update s.pc i PC.idle j)
    by_cases hj : j = i
    · subst hj
      rw [Function.update_same]
      exact iff_of_false hiq (by simp)
    · rw [Function.update_noteq hj]
      exact hI.memAct j
  · intro h t hq
    have hq' : s.queue = h :: t := hq
    obtain ⟨hh, hlkh, hw⟩ := hI.qok h t hq'
    have hhi : h ≠ i := fun he => hiq (by rw [← he, hq']; exact List.mem_cons_self _ _)
    refine ⟨?_, hlkh, ?_⟩
    · show HeadPC (Function.update s.pc i PC.idle h)
      rw [Function.update_noteq hhi]
      exact hh
    · refine waiters_mono hw ?_ ?_ ?_
      · intro d hd
        have hdi : d ≠ i :=
          fun he => hiq (by rw [← he, hq']; exact List.mem_cons_of_mem _ hd)
        exact Function.update_noteq hdi _ _
      · intro d hd
        rfl
      · intro a ha
        have hai : a ≠ i := by
          intro he
          rcases ha with h' | h'
          · exact hhi (h'.symm.trans he)
          · exact hiq (by rw [← he, hq']; exact List.mem_cons_of_mem _ h')
        show Function.update s.next i none a = s.next a
        exact Function.update_noteq hai _ _
  · intro j hj
    exact hI.restLk j hj
  · intro j hj
    by_cases hji : j = i
    · subst hji
      show Function.update s.next j none j = none
      rw [Function.update_same]
    · have hj' : Function.update s.pc i PC.idle j = PC.idle := hj
      rw [Function.update_noteq hji] at hj'
      show Function.update s.next i none j = none
      rw [Function.update_noteq hji]
      exact hI.restNx j hj'
  · rcases hI.hist with ⟨hq0, he0⟩ | ⟨h0, t0, hq0, hE0, he0, hg0⟩ |
        ⟨h0, t0, hq0, hE0, he0⟩
    · exact Or.inl ⟨hq0, he0⟩
    · have hh0 : h0 ≠ i := fun he => hiq (by rw [← he, hq0]; exact List.mem_cons_self _ _)
      refine Or.inr (Or.inl ⟨h0, t0, hq0, ?_, he0, hg0⟩)
      show EnteredPC (Function.update s.pc i PC.idle h0)
      rw [Function.update_noteq hh0]
      exact hE0
    · have hh0 : h0 ≠ i := fun he => hiq (by rw [← he, hq0]; exact List.mem_cons_self _ _)
      refine Or.inr (Or.inr ⟨h0, t0, hq0, ?_, he0⟩)
      show ¬ EnteredPC (Function.update s.pc i PC.idle h0)
      rw [Function.update_noteq hh0]
      exact hE0

/-- Line 85 loading a null `next` cannot progress (never happens under the
invariant; the loop of line 82 has already observed a non-null value). -/
theorem step_relWake_stuck (hpc : s.pc i = PC.relWake) (hnx : s.next i = none) :
    step s i = s := by
  simp [step, hpc, hnx]

/-- Every step of every thread preserves the global invariant. -/
theorem inv_step (hI : Inv s) (i : Fin n) : Inv (step s i) := by
  cases hpc : s.pc i with
  | idle => exact inv_step_idle hI hpc
  | storeLocked p => exact inv_step_storeLocked hI hpc
  | storeNext p => exact inv_step_storeNext hI hpc
  | spinLocked =>
      cases hlk : s.locked i with
      | true =>
          rw [step_spin_busy s i hpc hlk]
          exact hI
      | false => exact inv_step_spin_exit hI hpc hlk
  | cs => exact inv_step_cs hI hpc
  | relCheck =>
      cases hnx : s.next i with
      | none =>
          by_cases hl : s.last = some i
          · exact inv_step_relCheck_cas hI hpc hnx hl
          · exact inv_step_relCheck_casFail hI hpc hnx hl
      | some c => exact inv_step_relCheck_succ hI hpc hnx
  | relSpin =>
      cases hnx : s.next i with
      | none =>
          rw [step_relSpin_busy s i hpc hnx]
          exact hI
      | some c => exact inv_step_relSpin_exit hI hpc hnx
  | relWake =>
      cases hnx : s.next i with
      | none =>
          rw [step_relWake_stuck hpc hnx]
          exact hI
      | some c => exact inv_step_relWake hI hpc hnx
  | relReset => exact inv_step_relReset hI hpc

end Preservation

/-- The initial state satisfies the invariant. -/
theorem inv_init (n : Nat) : Inv (init n) := by
  refine ⟨rfl, by simp [init], ?_, ?_, ?_, ?_, Or.inl ⟨rfl, rfl⟩⟩
  · intro j
    exact iff_of_false (by simp [init]) (by simp [init])
  · intro h t hq
    cases hq
  · intro j hj
    rfl
  · intro j hj
    rfl

/-- Running any schedule from an invariant state stays invariant. -/
theorem inv_run {n : Nat} {s : State n} (hI : Inv s) (sched : List (Fin n)) :
    Inv (run s sched) := by
  induction sched generalizing s with
  | nil => exact hI
  | cons j rest ih => exact ih (inv_step hI j)

/-- Every reachable state of the lock satisfies the global invariant. -/
theorem reachable_inv {n : Nat} {s : State n} (h : Reachable s) : Inv s := by
  obtain ⟨sched, rfl⟩ := h
  exact inv_run (inv_init n) sched

/-- C1: in `MCSNode::lock` the tail swap yields the previous tail; when it
was null the thread enters the critical section at once, touching neither
flags nor `next` links and entering no spin state; otherwise it first sets
its own `locked` to true, then publishes itself into `prev.next`, and then
busy-waits on its own `locked`, re-looping while the flag is true and
returning the guard only once it is false. -/
theorem C1_acquire_path {n : Nat} (s : State n) (i : Fin n) :
    (s.pc i = PC.idle → s.last = none →
      (step s i).pc i = PC.cs ∧ (step s i).last = some i ∧
        (step s i).locked = s.locked ∧ (step s i).next = s.next) ∧
    (∀ p, s.pc i = PC.idle → s.last = some p →
      (step s i).pc i = PC.storeLocked p ∧ (step s i).last = some i) ∧
    (∀ p, s.pc i = PC.storeLocked p →
      (step s i).locked = Function.update s.locked i true ∧
        (step s i).pc i = PC.storeNext p) ∧
    (∀ p, s.pc i = PC.storeNext p →
      (step s i).next = Function.update s.next p (some i) ∧
        (step s i).pc i = PC.spinLocked) ∧
    (s.pc i = PC.spinLocked → s.locked i = true → step s i = s) ∧
    (s.pc i = PC.spinLocked → s.locked i = false →
      (step s i).pc i = PC.cs ∧ (step s i).locked = s.locked ∧
        (step s i).next = s.next ∧ (step s i).last = s.last) := by
  refine ⟨?_, ?_, ?_, ?_, ?_, ?_⟩
  · intro hpc hl
    rw [step_idle_empty s i hpc hl]
    exact ⟨by simp, rfl, rfl, rfl⟩
  · intro p hpc hl
    rw [step_idle_prev s i p hpc hl]
    exact ⟨by simp, rfl⟩
  · intro p hpc
    rw [step_storeLocked s i p hpc]
    exact ⟨rfl, by simp⟩
  · intro p hpc
    rw [step_storeNext s i p hpc]
    exact ⟨rfl, by simp⟩
  · intro hpc hlk
    exact step_spin_busy s i hpc hlk
  · intro hpc hlk
    rw [step_spin_exit s i hpc hlk]
    exact ⟨by simp, rfl, rfl, rfl⟩

/-- Witness for C1 at concrete states: thread 0 swapping on the empty lock
immediately holds it, and thread 1 swapping next is sent to wait on the
previous tail 0. -/
theorem C1_acquire_path_witness :
    (step (init 2) 0).pc 0 = PC.cs ∧ (step (init 2) 0).last = some 0 ∧
      (step (step (init 2) 0) 1).pc 1 = PC.storeLocked 0 := by
  refine ⟨?_, ?_, ?_⟩
  · exact ((C1_acquire_path (init 2) 0).1 (by decide) (by decide)).1
  · exact ((C1_acquire_path (init 2) 0).1 (by decide) (by decide)).2.1
  · exact ((C1_acquire_path (step (init 2) 0) 1).2.1 0 (by decide) (by decide)).1

/-- C2: in the guard's drop handler, when `next` is null and the CAS of
the tail from this node to null succeeds the release completes with no
flag modified and the tail left null; when the CAS fails, or when `next`
was already non-null, the thread moves to the wait loop, which re-loops
while `next` is null and, once `next` names a successor, stores false into
that successor's `locked`. -/
theorem C2_release_path {n : Nat} (s : State n) (i : Fin n) :
    (s.pc i = PC.relCheck → s.next i = none → s.last = some i →
      (step s i).last = none ∧ (step s i).locked = s.locked ∧
        (step s i).pc i = PC.idle) ∧
    (s.pc i = PC.relCheck → s.next i = none → s.last ≠ some i →
      (step s i).pc i = PC.relSpin ∧ (step s i).last = s.last ∧
        (step s i).locked = s.locked) ∧
    (∀ c, s.pc i = PC.relCheck → s.next i = some c →
      (step s i).pc i = PC.relSpin ∧ (step s i).last = s.last ∧
        (step s i).locked = s.locked) ∧
    (s.pc i = PC.relSpin → s.next i = none → step s i = s) ∧
    (∀ c, s.pc i = PC.relSpin → s.next i = some c →
      (step s i).pc i = PC.relWake ∧ (step s i).locked = s.locked) ∧
    (∀ c, s.pc i = PC.relWake → s.next i = some c →
      (step s i).locked = Function.update s.locked c false ∧
        (step s i).pc i = PC.relReset) := by
  refine ⟨?_, ?_, ?_, ?_, ?_, ?_⟩
  · intro hpc hnx hl
    rw [step_relCheck_cas s i hpc hnx hl]
    exact ⟨rfl, rfl, by simp⟩
  · intro hpc hnx hl
    rw [step_relCheck_casFail s i hpc hnx hl]
    exact ⟨by simp, rfl, rfl⟩
  · intro c hpc hnx
    rw [step_relCheck_succ s i c hpc hnx]
    exact ⟨by simp, rfl, rfl⟩
  · intro hpc hnx
    exact step_relSpin_busy s i hpc hnx
  · intro c hpc hnx
    rw [step_relSpin_exit s i c hpc hnx]
    exact ⟨by simp, rfl⟩
  · intro c hpc hnx
    rw [step_relWake s i c hpc hnx]
    exact ⟨rfl, by simp⟩

/-- Witness for C2 at concrete states: the single uncontended holder's CAS
succeeds and leaves the tail null, and a holder with a published successor
clears that successor's flag. -/
theorem C2_release_path_witness :
    ((step (run (init 1) [0, 0]) 0).last = none ∧
      (step (run (init 1) [0, 0]) 0).pc 0 = PC.idle) ∧
      (step (run (init 2) [0, 1, 1, 1, 0, 0, 0]) 0).locked =
        Function.update (run (init 2) [0, 1, 1, 1, 0, 0, 0]).locked 1 false := by
  refine ⟨⟨?_, ?_⟩, ?_⟩
  · exact ((C2_release_path (run (init 1) [0, 0]) 0).1 (by decide) (by decide)
      (by decide)).1
  · exact ((C2_release_path (run (init 1) [0, 0]) 0).1 (by decide) (by decide)
      (by decide)).2.2
  · exact ((C2_release_path (run (init 2) [0, 1, 1, 1, 0, 0, 0]) 0).2.2.2.2.2 1
      (by decide) (by decide)).1

/-- C3: in every reachable state, the tail is null exactly when no thread
holds the lock and no thread awaits it. -/
theorem C3_tail_null_iff_unused {n : Nat} (s : State n) (hs : Reachable s) :
    s.last = none ↔ ∀ i, ¬ HoldsOrAwaits s i := by
  have hI := reachable_inv hs
  constructor
  · intro h i ha
    have hq : s.queue = [] := by
      rw [hI.lastEq] at h
      exact List.getLast?_eq_none_iff.1 h
    have := (hI.memAct i).2 ha
    rw [hq] at this
    cases this
  · intro hall
    have hq : s.queue = [] := (queue_empty_iff hI).2 hall
    rw [hI.lastEq, hq]
    rfl

/-- Witness for C3 at a concrete reachable state: after a full
acquire/release cycle the tail is null and every thread is inactive. -/
theorem C3_tail_null_iff_unused_witness :
    ¬ HoldsOrAwaits (run (init 1) [0, 0, 0]) 0 :=
  (C3_tail_null_iff_unused (run (init 1) [0, 0, 0]) ⟨[0, 0, 0], rfl⟩).1 (by decide) 0

/-- C4: every node's flag starts false; a step either leaves all flags
unchanged, or is the stepping thread setting its own flag true at line 48
(a state reached from the swap only when the previous tail was non-null),
or is a releasing thread storing false into the successor named by its
`next` field; in any reachable state that releasing thread is the queue
head and the cleared node is exactly its queue successor. -/
theorem C4_locked_flag_writers {n : Nat} :
    (∀ i : Fin n, (init n).locked i = false) ∧
    (∀ s : State n, ∀ i,
      (step s i).locked = s.locked ∨
      (∃ p, s.pc i = PC.storeLocked p ∧
        (step s i).locked = Function.update s.locked i true) ∨
      (∃ c, s.pc i = PC.relWake ∧ s.next i = some c ∧
        (step s i).locked = Function.update s.locked c false)) ∧
    (∀ s : State n, ∀ i, s.pc i = PC.idle → s.last = none →
      (step s i).pc i = PC.cs) ∧
    (∀ s : State n, ∀ i p, s.pc i = PC.idle →
      (step s i).pc i = PC.storeLocked p → s.last = some p) ∧
    (∀ s : State n, ∀ i c, Reachable s → s.pc i = PC.relWake →
      s.next i = some c →
      s.queue.head? = some i ∧ s.queue.tail.head? = some c) := by
  refine ⟨fun i => rfl, ?_, ?_, ?_, ?_⟩
  · intro s i
    cases hpc : s.pc i with
    | idle =>
        cases hl : s.last with
        | none => exact Or.inl (by rw [step_idle_empty s i hpc hl])
        | some p => exact Or.inl (by rw [step_idle_prev s i p hpc hl])
    | storeLocked p =>
        exact Or.inr (Or.inl ⟨p, rfl, by rw [step_storeLocked s i p hpc]⟩)
    | storeNext p => exact Or.inl (by rw [step_storeNext s i p hpc])
    | spinLocked =>
        cases hlk : s.locked i with
        | true => exact Or.inl (by rw [step_spin_busy s i hpc hlk])
        | false => exact Or.inl (by rw [step_spin_exit s i hpc hlk])
    | cs => exact Or.inl (by rw [step_cs s i hpc])
    | relCheck =>
        cases hnx : s.next i with
        | none =>
            by_cases hl : s.last = some i
            · exact Or.inl (by rw [step_relCheck_cas s i hpc hnx hl])
            · exact Or.inl (by rw [step_relCheck_casFail s i hpc hnx hl])
        | some c => exact Or.inl (by rw [step_relCheck_succ s i c hpc hnx])
    | relSpin =>
        cases hnx : s.next i with
        | none => exact Or.inl (by rw [step_relSpin_busy s i hpc hnx])
        | some c => exact Or.inl (by rw [step_relSpin_exit s i c hpc hnx])
    | relWake =>
        cases hnx : s.next i with
        | none => exact Or.inl (by rw [step_relWake_stuck hpc hnx])
        | some c =>
            exact Or.inr (Or.inr ⟨c, rfl, rfl, by rw [step_relWake s i c hpc hnx]⟩)
    | relReset => exact Or.inl (by rw [step_relReset s i hpc])
  · intro s i hpc hl
    rw [step_idle_empty s i hpc hl]
    simp
  · intro s i p hpc hstep
    cases hl : s.last with
    | none =>
        rw [step_idle_empty s i hpc hl] at hstep
        simp at hstep
    | some q =>
        rw [step_idle_prev s i q hpc hl] at hstep
        simp at hstep
        rw [hstep]
  · intro s i c hs hpc hnx
    have hI := reachable_inv hs
    have hE : EnteredPC (s.pc i) := by rw [hpc]; simp
    obtain ⟨t, hq⟩ := queue_decomp_of_entered hI hE
    obtain ⟨hh, hlkh, hw⟩ := hI.qok i t hq
    obtain ⟨t', ht, _, _, _⟩ := waiters_next_some hw hnx
    subst ht
    rw [hq]
    exact ⟨rfl, rfl⟩

/-- Witness for C4 at concrete states: the relWake step of thread 0 with
successor 1 in a reachable two-thread state clears exactly node 1's flag,
and the heads match. -/
theorem C4_locked_flag_writers_witness :
    ((run (init 2) [0, 1, 1, 1, 0, 0, 0]).queue.head? = some 0 ∧
      (run (init 2) [0, 1, 1, 1, 0, 0, 0]).queue.tail.head? = some 1) ∧
      (step (init 2) 0).pc 0 = PC.cs := by
  constructor
  · exact (@C4_locked_flag_writers 2).2.2.2.2
      (run (init 2) [0, 1, 1, 1, 0, 0, 0]) 0 1
      ⟨[0, 1, 1, 1, 0, 0, 0], rfl⟩ (by decide) (by decide)
  · exact (@C4_locked_flag_writers 2).2.2.1 (init 2) 0 (by decide) (by decide)

/-- C5: the uncontended fast path: from any state with a null tail and a
fresh idle thread, the cycle swap / guard drop / successful CAS completes
in three steps whose program counters are `cs`, `relCheck` and `idle` —
never a spin state — and leaves the tail null and the node fresh. -/
theorem C5_uncontended_fast_path {n : Nat} (s : State n) (i : Fin n)
    (hpc : s.pc i = PC.idle) (hl : s.last = none) (hnx : s.next i = none) :
    (step s i).pc i = PC.cs ∧
      (step (step s i) i).pc i = PC.relCheck ∧
      (step (step (step s i) i) i).pc i = PC.idle ∧
      (step (step (step s i) i) i).last = none ∧
      (step (step (step s i) i) i).next i = none ∧
      (step (step (step s i) i) i).locked = s.locked := by
  have h1 := step_idle_empty s i hpc hl
  have hpc1 : (step s i).pc i = PC.cs := by rw [h1]; simp
  have h2 := step_cs (step s i) i hpc1
  have hpc2 : (step (step s i) i).pc i = PC.relCheck := by rw [h2]; simp
  have hnx2 : (step (step s i) i).next i = none := by rw [h2, h1]; exact hnx
  have hl2 : (step (step s i) i).last = some i := by rw [h2, h1]
  have h3 := step_relCheck_cas (step (step s i) i) i hpc2 hnx2 hl2
  refine ⟨hpc1, hpc2, ?_, ?_, ?_, ?_⟩
  · rw [h3]; simp
  · rw [h3]
  · rw [h3]
    exact hnx2
  · rw [h3, h2, h1]

/-- Witness for C5 at the initial one-thread lock. -/
theorem C5_uncontended_fast_path_witness :
    (step (init 1) 0).pc 0 = PC.cs ∧
      (step (step (init 1) 0) 0).pc 0 = PC.relCheck ∧
      (step (step (step (init 1) 0) 0) 0).pc 0 = PC.idle ∧
      (step (step (step (init 1) 0) 0) 0).last = none ∧
      (step (step (step (init 1) 0) 0) 0).next 0 = none ∧
      (step (step (step (init 1) 0) 0) 0).locked = (init 1).locked :=
  C5_uncontended_fast_path (init 1) 0 (by decide) (by decide) (by decide)

/-- C6: FIFO handoff. In every reachable state the ghost cs-entry history
is a prefix of the ghost swap history — critical sections are entered in
exactly the order the tail swaps completed — and any thread inside its
critical section is the queue head, so no waiter is overtaken. -/
theorem C6_fifo_order {n : Nat} (s : State n) (hs : Reachable s) :
    (∃ t, s.enqHist = s.csHist ++ t) ∧
      (∀ i, EnteredPC (s.pc i) → s.queue.head? = some i) := by
  have hI := reachable_inv hs
  constructor
  · rcases hI.hist with ⟨_, he⟩ | ⟨h0, t0, _, _, he, _⟩ | ⟨h0, t0, _, _, he⟩
    · exact ⟨[], by rw [he, List.append_nil]⟩
    · exact ⟨t0, he⟩
    · exact ⟨h0 :: t0, he⟩
  · intro i hE
    exact entered_is_head hI hE

/-- Witness for C6 at a concrete reachable state: thread 0 swapped first,
thread 1 second, and thread 0 (in its critical section) is the head. -/
theorem C6_fifo_order_witness :
    (∃ t, (run (init 2) [0, 1]).enqHist = (run (init 2) [0, 1]).csHist ++ t) ∧
      (run (init 2) [0, 1]).queue.head? = some 0 := by
  refine ⟨(C6_fifo_order (run (init 2) [0, 1]) ⟨[0, 1], rfl⟩).1, ?_⟩
  exact (C6_fifo_order (run (init 2) [0, 1]) ⟨[0, 1], rfl⟩).2 0 (Or.inl (by decide))

/-- C7 as stated is false on this code: `MCSNode::lock` does not build a
node — `get_locker` does, once per locker — and `main` (lines 120-125)
calls `get_locker` once per thread and `lock` in a loop, reusing one node
for every acquisition.  Running one thread for two complete
acquire/release cycles shows the same node (node 0) recorded twice in the
cs-entry history: two acquisitions used one node, so nodes are reused
across acquisitions and do not live exactly as long as one guard. -/
theorem C7_counterexample :
    (run (init 1) [0, 0, 0, 0, 0, 0]).csHist = [0, 0] ∧
      ¬ (run (init 1) [0, 0, 0, 0, 0, 0]).csHist.Nodup := by
  decide

/-- C7 amended: the fresh node (`next` null, `locked` false, Arc to the
lock) is built by `get_locker`, once per locker object rather than once
per acquisition; `lock` reuses the caller's node, which the release
restores to its freshly-built field state, so one node may serve — and in
`main` does serve — many acquisitions, outliving each guard. -/
theorem C7_amended {T : Type} (l : MCSLockT T) :
    (l.get_locker.next = none ∧ l.get_locker.locked = false ∧
      l.get_locker.mcs_lock = l) ∧
    ((run (init 1) [0, 0, 0]).pc 0 = PC.idle ∧
      (run (init 1) [0, 0, 0]).next 0 = none ∧
      (run (init 1) [0, 0, 0]).locked 0 = false ∧
      (run (init 1) [0, 0, 0, 0, 0, 0]).csHist = [0, 0]) :=
  ⟨⟨rfl, rfl, rfl⟩, by decide⟩

/-- Witness for the amended C7 at a concrete lock value. -/
theorem C7_amended_witness :
    ((MCSLockT.new (5 : Nat)).get_locker.next = none ∧
      (MCSLockT.new (5 : Nat)).get_locker.locked = false ∧
      (MCSLockT.new (5 : Nat)).get_locker.mcs_lock = MCSLockT.new (5 : Nat)) ∧
    ((run (init 1) [0, 0, 0]).pc 0 = PC.idle ∧
      (run (init 1) [0, 0, 0]).next 0 = none ∧
      (run (init 1) [0, 0, 0]).locked 0 = false ∧
      (run (init 1) [0, 0, 0, 0, 0, 0]).csHist = [0, 0]) :=
  C7_amended (MCSLockT.new (5 : Nat))

/-- C8: the stores that publish a node into the tail (line 42) and into
`prev.next` (line 52), the handoff store clearing `locked` (line 86), and
the spin load of `locked` (line 55) all use `SeqCst` — the strongest
ordering, uniformly — so each store is at least release strength and the
load at least acquire strength, as the release/acquire visibility pairing
requires. -/
theorem C8_ordering_strength :
    swapOrd = MemOrd.seqCst ∧ storeNextOrd = MemOrd.seqCst ∧
      wakeStoreOrd = MemOrd.seqCst ∧ loadLockedOrd = MemOrd.seqCst ∧
      storeLockedOrd = MemOrd.seqCst ∧ loadNextOrd = MemOrd.seqCst ∧
      swapOrd.atLeastRelease ∧ storeNextOrd.atLeastRelease ∧
      wakeStoreOrd.atLeastRelease ∧ loadLockedOrd.atLeastAcquire :=
  ⟨rfl, rfl, rfl, rfl, rfl, rfl, trivial, trivial, trivial, trivial⟩

/-- C9: on both release paths of the drop handler — the successful tail
CAS and the handoff path ending at line 89 — the released node ends with
`next` null and `locked` false, the field state `get_locker` builds, and
its thread returns to idle, so the same node can be passed to `lock`
again. -/
theorem C9_node_restored {n : Nat} (s : State n) (i : Fin n) (hs : Reachable s) :
    (s.pc i = PC.relCheck → s.next i = none → s.last = some i →
      (step s i).next i = none ∧ (step s i).locked i = false ∧
        (step s i).pc i = PC.idle) ∧
    (s.pc i = PC.relReset →
      (step s i).next i = none ∧ (step s i).locked i = false ∧
        (step s i).pc i = PC.idle) := by
  have hI := reachable_inv hs
  constructor
  · intro hpc hnx hl
    rw [step_relCheck_cas s i hpc hnx hl]
    have hE : EnteredPC (s.pc i) := by rw [hpc]; simp
    have hq := last_head_singleton hI (entered_is_head hI hE) hl
    have hlk : s.locked i = false := (hI.qok i [] hq).2.1
    exact ⟨hnx, hlk, by simp⟩
  · intro hpc
    rw [step_relReset s i hpc]
    have hiq : i ∉ s.queue := fun hm => ((hI.memAct i).1 hm).2 hpc
    exact ⟨by simp, hI.restLk i hiq, by simp⟩

/-- Witness for C9 on both paths: the uncontended CAS release of thread 0,
and the handoff release of thread 0 to thread 1. -/
theorem C9_node_restored_witness :
    ((step (run (init 1) [0, 0]) 0).next 0 = none ∧
      (step (run (init 1) [0, 0]) 0).locked 0 = false ∧
      (step (run (init 1) [0, 0]) 0).pc 0 = PC.idle) ∧
    ((step (run (init 2) [0, 1, 1, 1, 0, 0, 0, 0]) 0).next 0 = none ∧
      (step (run (init 2) [0, 1, 1, 1, 0, 0, 0, 0]) 0).locked 0 = false ∧
      (step (run (init 2) [0, 1, 1, 1, 0, 0, 0, 0]) 0).pc 0 = PC.idle) := by
  constructor
  · exact (C9_node_restored (run (init 1) [0, 0]) 0 ⟨[0, 0], rfl⟩).1
      (by decide) (by decide) (by decide)
  · exact (C9_node_restored (run (init 2) [0, 1, 1, 1, 0, 0, 0, 0]) 0
      ⟨[0, 1, 1, 1, 0, 0, 0, 0], rfl⟩).2 (by decide)

/-- C10: `get_locker` mutates no lock state — the returned node holds the
very lock value it was called on, with tail and payload unchanged, and is
itself fresh and unenqueued — while in the protocol model the tail changes
only on a step from `idle` (the swap inside `lock`) or from `relCheck`
(the release CAS in drop), and the queue changes only on those steps or
the handoff step from `relWake` in drop. -/
theorem C10_get_locker_frame {T : Type} :
    (∀ l : MCSLockT T, l.get_locker.mcs_lock = l ∧
      l.get_locker.mcs_lock.last = l.last ∧
      l.get_locker.mcs_lock.data = l.data ∧
      l.get_locker.next = none ∧ l.get_locker.locked = false) ∧
    (∀ n : Nat, ∀ s : State n, ∀ i, (step s i).last ≠ s.last →
      s.pc i = PC.idle ∨ s.pc i = PC.relCheck) ∧
    (∀ n : Nat, ∀ s : State n, ∀ i, (step s i).queue ≠ s.queue →
      s.pc i = PC.idle ∨ s.pc i = PC.relCheck ∨ s.pc i = PC.relWake) := by
  refine ⟨fun l => ⟨rfl, rfl, rfl, rfl, rfl⟩, ?_, ?_⟩
  · intro n s i hne
    cases hpc : s.pc i with
    | idle => exact Or.inl rfl
    | storeLocked p => exact absurd (by rw [step_storeLocked s i p hpc]) hne
    | storeNext p => exact absurd (by rw [step_storeNext s i p hpc]) hne
    | spinLocked =>
        cases hlk : s.locked i with
        | true => exact absurd (by rw [step_spin_busy s i hpc hlk]) hne
        | false => exact absurd (by rw [step_spin_exit s i hpc hlk]) hne
    | cs => exact absurd (by rw [step_cs s i hpc]) hne
    | relCheck => exact Or.inr rfl
    | relSpin =>
        cases hnx : s.next i with
        | none => exact absurd (by rw [step_relSpin_busy s i hpc hnx]) hne
        | some c => exact absurd (by rw [step_relSpin_exit s i c hpc hnx]) hne
    | relWake =>
        cases hnx : s.next i with
        | none => exact absurd (by rw [step_relWake_stuck hpc hnx]) hne
        | some c => exact absurd (by rw [step_relWake s i c hpc hnx]) hne
    | relReset => exact absurd (by rw [step_relReset s i hpc]) hne
  · intro n s i hne
    cases hpc : s.pc i with
    | idle => exact Or.inl rfl
    | storeLocked p => exact absurd (by rw [step_storeLocked s i p hpc]) hne
    | storeNext p => exact absurd (by rw [step_storeNext s i p hpc]) hne
    | spinLocked =>
        cases hlk : s.locked i with
        | true => exact absurd (by rw [step_spin_busy s i hpc hlk]) hne
        | false => exact absurd (by rw [step_spin_exit s i hpc hlk]) hne
    | cs => exact absurd (by rw [step_cs s i hpc]) hne
    | relCheck => exact Or.inr (Or.inl rfl)
    | relSpin =>
        cases hnx : s.next i with
        | none => exact absurd (by rw [step_relSpin_busy s i hpc hnx]) hne
        | some c => exact absurd (by rw [step_relSpin_exit s i c hpc hnx]) hne
    | relWake =>
        cases hnx : s.next i with
        | none => exact absurd (by rw [step_relWake_stuck hpc hnx]) hne
        | some c => exact Or.inr (Or.inr rfl)
    | relReset => exact absurd (by rw [step_relReset s i hpc]) hne

/-- Witness for C10: the step that changed the tail from the initial state
was indeed a `lock` swap from `idle`. -/
theorem C10_get_locker_frame_witness :
    (init 1).pc 0 = PC.idle ∨ (init 1).pc 0 = PC.relCheck :=
  (@C10_get_locker_frame Nat).2.1 1 (init 1) 0 (by decide)

end MCS
